import Mathlib

/-! # Verification development for `grafo_mpi.cpp`

A shallow embedding of `src/C/grafo_mpi.cpp`: graph generation, replication of
the edge list through a flat buffer, the block partitioner, and the two
collectives of the benchmark.

Conventions of the embedding.

* `size_t` values are natural numbers; every `size_t` operation of the source is
  written with `add_sz`, `sub_sz`, `mul_sz`, which reduce modulo `2 ^ 64`.
* `std::vector` is `List`.  Operations whose C++ behaviour is undefined outside
  a precondition (an iterator range that is not a valid range, `operator[]`
  past the end, division by zero) return `Option`, with `none` for the
  undefined case.
* `int` arguments (`rank`, `size`) are natural numbers: MPI hands out
  `0 ≤ rank < size`.  Element counts passed to the collectives are natural
  numbers as well.
* The MPI library is not part of the sources.  Its collectives are modelled
  from their description in the specification, which covers members that pass
  equal counts; a member's call is a function of the send buffers of the whole
  group.  For members that pass different counts MPI defines no outcome, and
  the model gives the call no result (`Except`, like `none` above).
* `double` values are elements of an arbitrary type with `0`, `1` and `+`;
  no law of arithmetic is assumed about them.
-/

namespace GrafoMPI

/-! ## Machine integers -/

/-- Number of values of the 64-bit type `size_t`. -/
def SIZE_MOD : Nat := 2 ^ 64

/-- Largest value of `int`. -/
def INT_MAX : Nat := 2 ^ 31 - 1

/-- Value of `max_size()` for `vector<pair<size_t, size_t>>`: 16-byte elements
in a 64-bit address space. -/
def max_size : Nat := 2 ^ 59 - 1

/-- Addition of two `size_t` values. -/
def add_sz (a b : Nat) : Nat := (a + b) % SIZE_MOD

/-- Subtraction of two `size_t` values (wraps below zero). -/
def sub_sz (a b : Nat) : Nat := (a % SIZE_MOD + SIZE_MOD - b % SIZE_MOD) % SIZE_MOD

/-- Multiplication of two `size_t` values. -/
def mul_sz (a b : Nat) : Nat := (a * b) % SIZE_MOD

/-! ## Data model -/

/-- The `struct Graph` of the source. -/
structure Graph where
  edges : List (Nat × Nat)
  vertices : Nat
deriving DecidableEq, Repr

/-! ## `generate_graph` -/

/-- One iteration of the loop in `generate_graph`: the two calls of `rand()`
made in iteration `i` are calls number `2 * i` and `2 * i + 1` of the stream.
(C++ leaves the order of evaluation of the two arguments open; what is proved
below holds for every stream, hence for either order.) -/
def generate_step (rand : Nat → Nat) (num_vertices : Nat) (graph : Graph) (i : Nat) : Graph :=
  { graph with
    edges := graph.edges ++ [(rand (2 * i) % num_vertices, rand (2 * i + 1) % num_vertices)] }

/-- The function `generate_graph(num_edges, num_vertices)`; `rand` is the stream of
values that successive calls of `rand()` return after `srand(time(nullptr))`.  With
`num_vertices = 0` the first iteration divides by zero, which is undefined. -/
def generate_graph (rand : Nat → Nat) (num_edges num_vertices : Nat) : Option Graph :=
  if num_vertices = 0 ∧ 0 < num_edges then none
  else some ((List.range num_edges).foldl (generate_step rand num_vertices)
    { edges := [], vertices := num_vertices })

/-! ## `parallel_partition` -/

/-- The iterator-range constructor `vector(v.begin() + first, v.begin() + last)`.
It is defined only when `[first, last)` is a valid range inside `v`. -/
def vector_range {α : Type} (v : List α) (first last : Nat) : Option (List α) :=
  if first ≤ last ∧ last ≤ v.length then some ((v.drop first).take (last - first)) else none

/-- The function `parallel_partition(graph, rank, size)`. -/
def parallel_partition (graph : Graph) (rank size : Nat) : Option (List (Nat × Nat)) :=
  if size = 0 then none else
  let chunk_size := sub_sz (add_sz graph.edges.length size) 1 / size
  let start := mul_sz rank chunk_size
  let end_ := min (add_sz start chunk_size) graph.edges.length
  vector_range graph.edges start end_

/-- The values of a list of results, defined when every result is. -/
def all_some {γ : Type} : List (Option γ) → Option (List γ)
  | [] => some []
  | none :: _ => none
  | some x :: rest =>
    match all_some rest with
    | none => none
    | some xs => some (x :: xs)

/-- The partitions of all ranks `0, …, size - 1`, in rank order; defined when every
call of `parallel_partition` is. -/
def all_partitions (graph : Graph) (size : Nat) : Option (List (List (Nat × Nat))) :=
  all_some ((List.range size).map (fun rank => parallel_partition graph rank size))

/-! ## Replication of the edge list (`main`, lines 67–102) -/

/-- The unchecked write `v[i] = x`; undefined past the end of `v`. -/
def vec_set {α : Type} (v : List α) (i : Nat) (x : α) : Option (List α) :=
  if i < v.length then some (v.set i x) else none

/-- The call `v.resize(n)`, new elements being value-initialised to `fill`. -/
def resize {α : Type} (v : List α) (n : Nat) (fill : α) : List α :=
  v.take n ++ List.replicate (n - v.length) fill

/-- Body of the flatten loop of `main`, iteration `i`. -/
def flatten_step (edges : List (Nat × Nat)) (flat_edges : List Nat) (i : Nat) :
    Option (List Nat) :=
  match edges[i]? with
  | none => none
  | some e =>
    match vec_set flat_edges (mul_sz 2 i) e.1 with
    | none => none
    | some flat_edges => vec_set flat_edges (add_sz (mul_sz 2 i) 1) e.2

/-- Rank 0 in `main`: `vector<size_t> flat_edges(num_edges * 2)` followed by the
flatten loop `for (i = 0; i < num_edges; ++i)`. -/
def flatten_edges (edges : List (Nat × Nat)) (num_edges : Nat) : Option (List Nat) :=
  (List.range num_edges).foldlM (flatten_step edges) (List.replicate (mul_sz num_edges 2) 0)

/-- Body of the unflatten loop of `main`, iteration `i`. -/
def unflatten_step (flat_edges : List Nat) (edges : List (Nat × Nat)) (i : Nat) :
    Option (List (Nat × Nat)) :=
  match flat_edges[mul_sz 2 i]? with
  | none => none
  | some u =>
    match flat_edges[add_sz (mul_sz 2 i) 1]? with
    | none => none
    | some v => some (edges ++ [(u, v)])

/-- Ranks other than 0 in `main`: `graph.edges.clear()` followed by the unflatten
loop `for (i = 0; i < num_edges; ++i)`. -/
def unflatten_edges (flat_edges : List Nat) (num_edges : Nat) : Option (List (Nat × Nat)) :=
  (List.range num_edges).foldlM (unflatten_step flat_edges) []

/-- Modelled from the spec: the MPI library is not part of the sources.
`broadcast(buffer, count, root)` seen from one member: `sent` is the first `count`
elements of the root's buffer, and they replace the first `count` elements of the
member's own `buffer`. -/
def MPI_Bcast {α : Type} (sent : List α) (buffer : List α) (count : Nat) : Option (List α) :=
  if sent.length = count ∧ count ≤ buffer.length then some (sent ++ buffer.drop count) else none

/-- Lines 67–102 of `main` on the member `rank`: `generated` is the graph that
`generate_graph` returned on rank 0, `garbage` the indeterminate initial value of
`graph.vertices` on the other ranks.  The result is the member's `graph`. -/
def main_replicate (generated : Graph) (rank : Nat) (garbage : Nat) : Option Graph := do
  -- what rank 0 executes up to the third broadcast
  let root_flat ← flatten_edges generated.edges generated.edges.length
  -- `Graph graph; size_t num_edges = 0; if (rank == 0) { ... }`
  let graph : Graph := if rank = 0 then generated else { edges := [], vertices := garbage }
  let num_edges : Nat := if rank = 0 then graph.edges.length else 0
  -- the two scalar broadcasts
  let vertices ← MPI_Bcast [generated.vertices] [graph.vertices] 1
  let num_edges ← MPI_Bcast [generated.edges.length] [num_edges] 1
  let graph : Graph := { graph with vertices := vertices.headD 0 }
  let num_edges := num_edges.headD 0
  -- `if (rank != 0) graph.edges.resize(num_edges);`
  let graph : Graph :=
    if rank ≠ 0 then { graph with edges := resize graph.edges num_edges (0, 0) } else graph
  -- `vector<size_t> flat_edges(num_edges * 2); if (rank == 0) { flatten loop }`
  let flat_edges ←
    if rank = 0 then flatten_edges graph.edges num_edges
    else some (List.replicate (mul_sz num_edges 2) 0)
  let flat_edges ← MPI_Bcast root_flat flat_edges (mul_sz num_edges 2)
  -- `if (rank != 0) { graph.edges.clear(); unflatten loop }`
  if rank ≠ 0 then
    let edges ← unflatten_edges flat_edges num_edges
    some { graph with edges := edges }
  else
    some graph

/-! ## Local computation (`main`, lines 107–110) -/

/-- The vector `local_results(local_partition.size(), 1.0)` that `main` builds from
`parallel_partition(graph, rank, size)`. -/
def main_local_results {α : Type} [One α] (graph : Graph) (rank size : Nat) :
    Option (List α) :=
  match parallel_partition graph rank size with
  | none => none
  | some local_partition => some (List.replicate local_partition.length 1)

/-! ## Collectives -/

/-- Reasons for which a collective call has no defined result.  Neither is an error
code that the program receives: both stand for behaviour that is not defined. -/
inductive Fault where
  /-- The members passed different counts.  MPI calls such a call erroneous and
  defines no outcome for it. -/
  | erroneous_call
  /-- A buffer is shorter than the count passed with it (undefined behaviour). -/
  | buffer_overrun
deriving DecidableEq, Repr

deriving instance DecidableEq for Except

/-- A member's view of the communicator during one collective: its own rank and
the send buffers of all members, in rank order (the slot of the member itself is
filled in by the call). -/
structure MPI_Comm (α : Type) where
  rank : Nat
  peers : List (List α)

/-- The call `MPI_Comm_size`. -/
def MPI_Comm_size {α : Type} (comm : MPI_Comm α) : Nat := comm.peers.length

/-- Modelled from the spec: the MPI library is not part of the sources.
Reception of one contribution `msg` into the block of `count` elements that starts
at `offset` in `recvbuf`.  The contribution must have exactly `count` elements; it
then fills the block.  With any other length the call has no defined result. -/
def recv_into {α : Type} (recvbuf : List α) (offset count : Nat) (msg : List α) :
    Except Fault (List α) :=
  if msg.length ≠ count then .error .erroneous_call
  else if recvbuf.length < offset + count then .error .buffer_overrun
  else .ok (recvbuf.take offset ++ msg ++ recvbuf.drop (offset + count))

/-- Reception of the contributions `msgs` of the members `j, j + 1, …` into the
blocks `j, j + 1, …` of `recvbuf`, each block `recvcount` elements wide. -/
def gather_blocks {α : Type} (recvcount : Nat) :
    Nat → List (List α) → List α → Except Fault (List α)
  | _, [], recvbuf => .ok recvbuf
  | j, msg :: msgs, recvbuf =>
    match recv_into recvbuf (j * recvcount) recvcount msg with
    | .error e => .error e
    | .ok recvbuf => gather_blocks recvcount (j + 1) msgs recvbuf

/-- Modelled from the spec: the MPI library is not part of the sources.
`all_gather(local_buf, count) → global_buf`: the contribution of member `j`, for
`j` in rank order, is received into block `j` of the receive buffer. -/
def MPI_Allgather {α : Type} (comm : MPI_Comm α) (sendbuf : List α) (sendcount : Nat)
    (recvbuf : List α) (recvcount : Nat) : Except Fault (List α) :=
  if sendbuf.length < sendcount then .error .buffer_overrun
  else gather_blocks recvcount 0 (comm.peers.set comm.rank (sendbuf.take sendcount)) recvbuf

/-- The function `gather_results(comm, local_results, global_results)`; the result
is the final content of `global_results`. -/
def gather_results {α : Type} [Zero α] (comm : MPI_Comm α) (local_results : List α)
    (global_results : List α) : Except Fault (List α) :=
  let size := MPI_Comm_size comm
  let global_results := resize global_results (mul_sz local_results.length size) 0
  MPI_Allgather comm local_results local_results.length global_results local_results.length

/-- Elementwise accumulation of a contribution into the running sum.  It is applied
only to vectors of one common length. -/
def sum_into {α : Type} [Add α] (acc msg : List α) : List α :=
  List.zipWith (fun a b => a + b) acc msg

/-- Elementwise sum of the contributions, accumulated in rank order starting with
the contribution of rank 0. -/
def sum_all {α : Type} [Add α] : List (List α) → List α
  | [] => []
  | msg :: msgs => msgs.foldl sum_into msg

/-- Modelled from the spec: the MPI library is not part of the sources.
`all_reduce(local_buf, count, op=SUM) → buf`: the contributions, of `count` elements
each, are summed elementwise in rank order into the first `count` elements of the
receive buffer; the elements of the buffer past them are not written.  When some
member contributes another number of elements the call has no defined result. -/
def MPI_Allreduce {α : Type} [Add α] (comm : MPI_Comm α) (sendbuf recvbuf : List α)
    (count : Nat) : Except Fault (List α) :=
  if sendbuf.length < count ∨ recvbuf.length < count then .error .buffer_overrun
  else
    let msgs := comm.peers.set comm.rank (sendbuf.take count)
    if msgs.any (fun msg => decide (msg.length ≠ count)) then .error .erroneous_call
    else
      let reduced := sum_all msgs
      .ok (reduced ++ recvbuf.drop reduced.length)

/-- Lines 124–126 of `main`: the buffer `global_results_benchmark` after the call
of `MPI_Allreduce`. -/
def main_allreduce {α : Type} [Zero α] [Add α] (comm : MPI_Comm α) (local_results : List α) :
    Except Fault (List α) :=
  let size := MPI_Comm_size comm
  let global_results_benchmark : List α := List.replicate (mul_sz local_results.length size) 0
  MPI_Allreduce comm local_results global_results_benchmark local_results.length

/-! ## Reference notions used in the statements -/

/-- The chunk size `(N + S - 1) / S` of `parallel_partition`, computed in the
natural numbers. -/
def chunk_of (N S : Nat) : Nat := (N + S - 1) / S

/-- Partition length of rank `r` by the formula of the specification:
`chunk = ceil(N / S)`, `start = r * chunk`, `end = min(start + chunk, N)`, length
`end - start`, taken as `0` when `start ≥ N`. -/
def formula_length (N S r : Nat) : Nat :=
  let chunk := chunk_of N S
  let start := r * chunk
  let end_ := min (start + chunk) N
  if N ≤ start then 0 else end_ - start

/-- The layout `(u0, v0, u1, v1, …)` of an edge list. -/
def interleave : List (Nat × Nat) → List Nat
  | [] => []
  | e :: es => e.1 :: e.2 :: interleave es

/-- Sum of a list of scalars, taken from left to right starting with the first. -/
def rank_sum {α : Type} [Zero α] [Add α] : List α → α
  | [] => 0
  | x :: xs => xs.foldl (fun a b => a + b) x

/-- The elementwise sum, over the members in rank order, of the first `k` entries
of their vectors. -/
def elementwise_sum {α : Type} [Zero α] [Add α] (Ls : List (List α)) (k : Nat) : List α :=
  (List.range k).map (fun i => rank_sum (Ls.map (fun L => L.getD i 0)))

/-! # Theorems -/

/-! ## Absence of wrap-around in `parallel_partition` -/

theorem chunk_mul_le (N S : Nat) : S * chunk_of N S ≤ N + S - 1 := by
  unfold chunk_of
  rw [Nat.mul_comm]
  exact Nat.div_mul_le_self _ _

theorem le_chunk_mul (N S : Nat) (hS : 0 < S) : N ≤ S * chunk_of N S := by
  unfold chunk_of
  have h := Nat.div_add_mod (N + S - 1) S
  have h2 := Nat.mod_lt (N + S - 1) hS
  omega

theorem rank_mul_chunk_le (N S r : Nat) (hr : r < S) :
    r * chunk_of N S + chunk_of N S ≤ N + S - 1 := by
  have h1 := chunk_mul_le N S
  have h2 : (r + 1) * chunk_of N S ≤ S * chunk_of N S := Nat.mul_le_mul_right _ hr
  have h3 : (r + 1) * chunk_of N S = r * chunk_of N S + chunk_of N S := by ring
  omega

/-- Under the bounds that the types `vector` and `int` impose, none of the `size_t`
operations of `parallel_partition` wraps. -/
theorem parallel_partition_eq (graph : Graph) (rank size : Nat) (hS : 0 < size)
    (hr : rank < size) (hN : graph.edges.length ≤ max_size) (hI : size ≤ INT_MAX) :
    parallel_partition graph rank size =
      vector_range graph.edges (rank * chunk_of graph.edges.length size)
        (min (rank * chunk_of graph.edges.length size + chunk_of graph.edges.length size)
          graph.edges.length) := by
  have h1 := rank_mul_chunk_le graph.edges.length size rank hr
  have hb : graph.edges.length + size < 2 ^ 64 := by
    simp only [max_size, INT_MAX] at hN hI; omega
  have e1 : add_sz graph.edges.length size = graph.edges.length + size := by
    unfold add_sz SIZE_MOD; exact Nat.mod_eq_of_lt hb
  have e2 : sub_sz (graph.edges.length + size) 1 = graph.edges.length + size - 1 := by
    unfold sub_sz SIZE_MOD; omega
  have e3 : mul_sz rank (chunk_of graph.edges.length size)
      = rank * chunk_of graph.edges.length size := by
    unfold mul_sz SIZE_MOD; apply Nat.mod_eq_of_lt; omega
  have e4 : add_sz (rank * chunk_of graph.edges.length size) (chunk_of graph.edges.length size)
      = rank * chunk_of graph.edges.length size + chunk_of graph.edges.length size := by
    unfold add_sz SIZE_MOD; apply Nat.mod_eq_of_lt; omega
  unfold parallel_partition
  rw [if_neg (by omega)]
  simp only [e1, e2]
  show vector_range graph.edges (mul_sz rank (chunk_of graph.edges.length size))
      (min (add_sz (mul_sz rank (chunk_of graph.edges.length size))
        (chunk_of graph.edges.length size)) graph.edges.length) = _
  rw [e3, e4]

/-- Whenever the start index does not pass the end of the edge list, the call returns
the slice `edges[start : end)`. -/
theorem parallel_partition_in_range (graph : Graph) (rank size : Nat) (hS : 0 < size)
    (hr : rank < size) (hN : graph.edges.length ≤ max_size) (hI : size ≤ INT_MAX)
    (hstart : rank * chunk_of graph.edges.length size ≤ graph.edges.length) :
    parallel_partition graph rank size =
      some ((graph.edges.drop (rank * chunk_of graph.edges.length size)).take
        (min (rank * chunk_of graph.edges.length size + chunk_of graph.edges.length size)
          graph.edges.length - rank * chunk_of graph.edges.length size)) := by
  rw [parallel_partition_eq graph rank size hS hr hN hI]
  unfold vector_range
  rw [if_pos]
  constructor
  · exact Nat.le_min.mpr ⟨Nat.le_add_right _ _, hstart⟩
  · exact Nat.min_le_right _ _

/-- Past the end of the edge list the iterator range is not a valid range. -/
theorem parallel_partition_past_end (graph : Graph) (rank size : Nat) (hS : 0 < size)
    (hr : rank < size) (hN : graph.edges.length ≤ max_size) (hI : size ≤ INT_MAX)
    (hstart : graph.edges.length < rank * chunk_of graph.edges.length size) :
    parallel_partition graph rank size = none := by
  rw [parallel_partition_eq graph rank size hS hr hN hI]
  unfold vector_range
  rw [if_neg]
  intro h
  have := Nat.min_le_right
    (rank * chunk_of graph.edges.length size + chunk_of graph.edges.length size)
    graph.edges.length
  omega

/-! ## Partition lengths -/

theorem vector_range_length {α : Type} (v : List α) (first last : Nat) (h1 : first ≤ last)
    (h2 : last ≤ v.length) :
    (vector_range v first last).map List.length = some (last - first) := by
  unfold vector_range
  rw [if_pos ⟨h1, h2⟩]
  simp only [Option.map_some', List.length_take, List.length_drop]
  congr 1
  omega

/-- Length of the partition of a rank: defined exactly when the start index does not
pass the end of the edge list. -/
theorem parallel_partition_length (graph : Graph) (rank size : Nat) (hS : 0 < size)
    (hr : rank < size) (hN : graph.edges.length ≤ max_size) (hI : size ≤ INT_MAX) :
    (parallel_partition graph rank size).map List.length =
      if rank * chunk_of graph.edges.length size ≤ graph.edges.length then
        some (min (rank * chunk_of graph.edges.length size + chunk_of graph.edges.length size)
          graph.edges.length - rank * chunk_of graph.edges.length size)
      else none := by
  by_cases h : rank * chunk_of graph.edges.length size ≤ graph.edges.length
  · rw [if_pos h, parallel_partition_eq graph rank size hS hr hN hI]
    apply vector_range_length
    · exact Nat.le_min.mpr ⟨Nat.le_add_right _ _, h⟩
    · exact Nat.min_le_right _ _
  · rw [if_neg h, parallel_partition_past_end graph rank size hS hr hN hI (by omega)]
    rfl

theorem dvd_iff_chunk_mul (N S : Nat) (hS : 0 < S) : S ∣ N ↔ S * chunk_of N S = N := by
  constructor
  · rintro ⟨q, rfl⟩
    have h1 := chunk_mul_le (S * q) S
    have h2 := le_chunk_mul (S * q) S hS
    have h3 : q ≤ chunk_of (S * q) S := Nat.le_of_mul_le_mul_left h2 hS
    have h4 : S * chunk_of (S * q) S < S * (q + 1) := by
      rw [Nat.mul_add, Nat.mul_one]; omega
    have h5 : chunk_of (S * q) S < q + 1 := Nat.lt_of_mul_lt_mul_left h4
    have h6 : chunk_of (S * q) S = q := by omega
    rw [h6]
  · intro h
    exact ⟨chunk_of N S, h.symm⟩

theorem chunk_of_eq_div (N S : Nat) (hS : 0 < S) (hd : S ∣ N) : chunk_of N S = N / S := by
  have h := (dvd_iff_chunk_mul N S hS).mp hd
  exact (Nat.div_eq_of_eq_mul_right hS h.symm).symm

theorem main_local_results_length {α : Type} [One α] (graph : Graph) (rank size : Nat) :
    (main_local_results graph rank size : Option (List α)).map List.length =
      (parallel_partition graph rank size).map List.length := by
  unfold main_local_results
  cases parallel_partition graph rank size <;> simp

theorem local_length_eq {α : Type} [One α] (graph : Graph) (rank size : Nat) (hS : 0 < size)
    (hr : rank < size) (hN : graph.edges.length ≤ max_size) (hI : size ≤ INT_MAX) :
    (main_local_results graph rank size : Option (List α)).map List.length =
      if rank * chunk_of graph.edges.length size ≤ graph.edges.length then
        some (min (rank * chunk_of graph.edges.length size + chunk_of graph.edges.length size)
          graph.edges.length - rank * chunk_of graph.edges.length size)
      else none := by
  rw [main_local_results_length, parallel_partition_length graph rank size hS hr hN hI]

/-- Arithmetic facts about the last rank `m = S - 1`, with `c` the chunk size. -/
theorem last_rank_facts (N m : Nat) :
    N ≤ m * chunk_of N (m + 1) + chunk_of N (m + 1) ∧
    m * chunk_of N (m + 1) + chunk_of N (m + 1) ≤ N + m ∧
    (chunk_of N (m + 1) = 0 ∨ m ≤ m * chunk_of N (m + 1)) ∧
    (chunk_of N (m + 1) = 0 → m * chunk_of N (m + 1) = 0) := by
  have h1 := le_chunk_mul N (m + 1) (Nat.succ_pos m)
  have h2 := chunk_mul_le N (m + 1)
  have h3 : (m + 1) * chunk_of N (m + 1) = m * chunk_of N (m + 1) + chunk_of N (m + 1) := by
    ring
  refine ⟨by omega, by omega, ?_, ?_⟩
  · rcases Nat.eq_zero_or_pos (chunk_of N (m + 1)) with h | h
    · exact Or.inl h
    · exact Or.inr (Nat.le_mul_of_pos_right m h)
  · intro h
    rw [h, Nat.mul_zero]

theorem dvd_all_in_range (N S r : Nat) (hS : 0 < S) (hr : r < S) (hd : S ∣ N) :
    r * chunk_of N S + chunk_of N S ≤ N ∧ chunk_of N S = N / S := by
  have h := (dvd_iff_chunk_mul N S hS).mp hd
  have h2 : (r + 1) * chunk_of N S ≤ S * chunk_of N S := Nat.mul_le_mul_right _ hr
  have h3 : (r + 1) * chunk_of N S = r * chunk_of N S + chunk_of N S := by ring
  exact ⟨by omega, chunk_of_eq_div N S hS hd⟩

/-- C10: for a group of `size > 0` members and an edge list of `N` edges (sizes within
the ranges of `vector` and `int`), the partition lengths given by the formula are all
equal iff `size` divides `N`; the members' `local_results` vectors all exist with one
common length iff `size` divides `N`; and then each has length `N / size`. -/
theorem equal_lengths_iff_dvd {α : Type} [One α] (graph : Graph) (size : Nat) (hS : 0 < size)
    (hN : graph.edges.length ≤ max_size) (hI : size ≤ INT_MAX) :
    ((∀ r, r < size → ∀ r', r' < size →
        formula_length graph.edges.length size r = formula_length graph.edges.length size r')
      ↔ size ∣ graph.edges.length) ∧
    ((∃ k, ∀ r, r < size →
        (main_local_results graph r size : Option (List α)).map List.length = some k)
      ↔ size ∣ graph.edges.length) ∧
    (size ∣ graph.edges.length → ∀ r, r < size →
        (main_local_results graph r size : Option (List α)).map List.length
          = some (graph.edges.length / size)) := by
  obtain ⟨m, rfl⟩ : ∃ m, size = m + 1 := ⟨size - 1, by omega⟩
  obtain ⟨f1, f2, f3, f4⟩ := last_rank_facts graph.edges.length m
  have back : m + 1 ∣ graph.edges.length → ∀ r, r < m + 1 →
      (main_local_results graph r (m + 1) : Option (List α)).map List.length
        = some (graph.edges.length / (m + 1)) := by
    intro hd r hr
    obtain ⟨g1, g2⟩ := dvd_all_in_range graph.edges.length (m + 1) r hS hr hd
    rw [local_length_eq graph r (m + 1) hS hr hN hI, if_pos (by omega)]
    congr 1
    omega
  refine ⟨⟨?_, ?_⟩, ⟨?_, ?_⟩, back⟩
  · intro h
    have h0 := h 0 (Nat.succ_pos m) m (Nat.lt_succ_self m)
    rw [dvd_iff_chunk_mul _ _ hS]
    have h3 : (m + 1) * chunk_of graph.edges.length (m + 1)
        = m * chunk_of graph.edges.length (m + 1) + chunk_of graph.edges.length (m + 1) := by
      ring
    rw [h3]
    simp only [formula_length, Nat.zero_mul, Nat.zero_add] at h0
    split_ifs at h0 <;> omega
  · intro hd r hr r' hr'
    obtain ⟨g1, g2⟩ := dvd_all_in_range graph.edges.length (m + 1) r hS hr hd
    obtain ⟨g3, g4⟩ := dvd_all_in_range graph.edges.length (m + 1) r' hS hr' hd
    simp only [formula_length]
    split_ifs <;> omega
  · rintro ⟨k, hk⟩
    have h0 := hk 0 (Nat.succ_pos m)
    have hm := hk m (Nat.lt_succ_self m)
    rw [local_length_eq graph 0 (m + 1) hS (Nat.succ_pos m) hN hI] at h0
    rw [local_length_eq graph m (m + 1) hS (Nat.lt_succ_self m) hN hI] at hm
    rw [dvd_iff_chunk_mul _ _ hS]
    have h3 : (m + 1) * chunk_of graph.edges.length (m + 1)
        = m * chunk_of graph.edges.length (m + 1) + chunk_of graph.edges.length (m + 1) := by
      ring
    rw [h3]
    simp only [Nat.zero_mul, Nat.zero_add, Nat.zero_le, if_true, Option.some.injEq] at h0
    split_ifs at hm with hle
    · simp only [Option.some.injEq] at hm
      omega
  · intro hd
    exact ⟨graph.edges.length / (m + 1), back hd⟩

/-- Witness for C10: four edges on two members. -/
theorem equal_lengths_iff_dvd_witness :
    ((∀ r, r < 2 → ∀ r', r' < 2 → formula_length 4 2 r = formula_length 4 2 r') ↔ 2 ∣ 4) ∧
    ((∃ k, ∀ r, r < 2 →
        (main_local_results ⟨[(0, 1), (1, 2), (2, 3), (3, 0)], 4⟩ r 2 : Option (List ℚ)).map
          List.length = some k) ↔ 2 ∣ 4) ∧
    (2 ∣ 4 → ∀ r, r < 2 →
        (main_local_results ⟨[(0, 1), (1, 2), (2, 3), (3, 0)], 4⟩ r 2 : Option (List ℚ)).map
          List.length = some (4 / 2)) :=
  @equal_lengths_iff_dvd ℚ _ ⟨[(0, 1), (1, 2), (2, 3), (3, 0)], 4⟩ 2 (by decide)
    (by decide) (by decide)

/-! ## Exhaustiveness of the partition -/

theorem all_some_map_some {β γ : Type} (f : β → Option γ) (g : β → γ) (l : List β)
    (h : ∀ x, x ∈ l → f x = some (g x)) : all_some (l.map f) = some (l.map g) := by
  induction l with
  | nil => rfl
  | cons a l ih =>
    have ha := h a (List.mem_cons_self a l)
    have hl := ih (fun x hx => h x (List.mem_cons_of_mem a hx))
    simp only [List.map_cons, ha, all_some, hl]

theorem all_some_map_none {β γ : Type} (f : β → Option γ) (l : List β) (x : β) (hx : x ∈ l)
    (h : f x = none) : all_some (l.map f) = none := by
  induction l with
  | nil => cases hx
  | cons a l ih =>
    rcases List.mem_cons.mp hx with rfl | hx
    · simp only [List.map_cons, h, all_some]
    · cases hfa : f a with
      | none => simp only [List.map_cons, hfa, all_some]
      | some y => simp only [List.map_cons, hfa, all_some, ih hx]

/-- The slice of rank `r`, for chunk size `c`, without clamping of either end. -/
theorem slice_eq_take_drop {α : Type} (l : List α) (r c : Nat) :
    (l.drop (r * c)).take (min (r * c + c) l.length - r * c) = (l.drop (r * c)).take c := by
  rw [List.take_eq_take, List.length_drop]
  omega

theorem join_slices {α : Type} (l : List α) (c n : Nat) :
    ((List.range n).map (fun r => (l.drop (r * c)).take c)).flatten = l.take (n * c) := by
  induction n with
  | zero => simp
  | succ n ih =>
    rw [List.range_succ, List.map_append, List.flatten_append, ih]
    simp only [List.map_cons, List.map_nil, List.flatten_cons, List.flatten_nil, List.append_nil]
    rw [Nat.succ_mul, List.take_add]

/-- When the start index of the last rank does not pass the end of the edge list, all
ranks obtain a partition and the partitions, concatenated in rank order, are the edge
list. -/
theorem all_partitions_join (graph : Graph) (size : Nat) (hS : 0 < size)
    (hN : graph.edges.length ≤ max_size) (hI : size ≤ INT_MAX)
    (hlast : (size - 1) * chunk_of graph.edges.length size ≤ graph.edges.length) :
    ∃ parts, all_partitions graph size = some parts ∧ parts.flatten = graph.edges := by
  refine ⟨(List.range size).map (fun r =>
    (graph.edges.drop (r * chunk_of graph.edges.length size)).take
      (chunk_of graph.edges.length size)), ?_, ?_⟩
  · unfold all_partitions
    apply all_some_map_some
    intro r hr
    have hr' : r < size := List.mem_range.mp hr
    have hle : r * chunk_of graph.edges.length size
        ≤ (size - 1) * chunk_of graph.edges.length size :=
      Nat.mul_le_mul_right _ (by omega)
    rw [parallel_partition_in_range graph r size hS hr' hN hI (by omega), slice_eq_take_drop]
  · rw [join_slices]
    apply List.take_of_length_le
    have := le_chunk_mul graph.edges.length size hS
    omega

/-- When the start index of some rank passes the end of the edge list, the family of
partitions is undefined. -/
theorem all_partitions_undefined (graph : Graph) (size rank : Nat) (hS : 0 < size)
    (hr : rank < size) (hN : graph.edges.length ≤ max_size) (hI : size ≤ INT_MAX)
    (hstart : graph.edges.length < rank * chunk_of graph.edges.length size) :
    all_partitions graph size = none :=
  all_some_map_none _ _ rank (List.mem_range.mpr hr)
    (parallel_partition_past_end graph rank size hS hr hN hI hstart)

/-- With the edge count of `main`, one million, a group of 1100 members has chunk size
910 and the last rank starts at 1 000 090: its call is undefined. -/
theorem parallel_partition_million_edges (graph : Graph)
    (h : graph.edges.length = 1000000) : parallel_partition graph 1099 1100 = none := by
  apply parallel_partition_past_end graph 1099 1100 (by decide) (by decide)
    (by rw [h]; decide) (by decide)
  rw [h]
  decide

/-- C1: on five edges and four members the concatenation of the partitions does not
exist, because the call for rank 3 (start index 6 past the five edges) is undefined. -/
theorem all_partitions_five_edges_four_ranks :
    all_partitions ⟨[(0, 1), (1, 2), (2, 3), (3, 4), (4, 0)], 5⟩ 4 = none := by
  decide

/-- C2: on five edges and four members rank 3 has `chunk = 2`, `start = 6 > 5` and
`end = 5`; the iterator range `[begin + 6, begin + 5)` is not a valid range and the call
is undefined instead of returning the empty list. -/
theorem parallel_partition_rank3_of_4_undefined :
    chunk_of 5 4 = 2 ∧
    parallel_partition ⟨[(0, 1), (1, 2), (2, 3), (3, 4), (4, 0)], 5⟩ 3 4 = none ∧
    parallel_partition ⟨[(0, 1), (1, 2), (2, 3), (3, 4), (4, 0)], 5⟩ 3 4 ≠ some [] := by
  decide

/-! ## Local results -/

theorem main_local_results_of_some {α : Type} [One α] (graph : Graph) (rank size : Nat)
    (p : List (Nat × Nat)) (h : parallel_partition graph rank size = some p) :
    (main_local_results graph rank size : Option (List α))
      = some (List.replicate p.length 1) := by
  unfold main_local_results
  rw [h]

theorem four_edges_two_ranks {α : Type} [One α] (graph : Graph) (e0 e1 e2 e3 : Nat × Nat)
    (hg : graph.edges = [e0, e1, e2, e3]) :
    (main_local_results graph 0 2 : Option (List α)) = some [1, 1] ∧
    (main_local_results graph 1 2 : Option (List α)) = some [1, 1] := by
  have hl : graph.edges.length = 4 := by rw [hg]; rfl
  have hc : chunk_of 4 2 = 2 := by decide
  have h0 := parallel_partition_in_range graph 0 2 (by decide) (by decide)
    (by rw [hl]; decide) (by decide) (by rw [Nat.zero_mul]; exact Nat.zero_le _)
  have h1 := parallel_partition_in_range graph 1 2 (by decide) (by decide)
    (by rw [hl]; decide) (by decide) (by rw [hl, hc]; decide)
  rw [hl, hc, hg] at h0 h1
  constructor
  · rw [main_local_results_of_some graph 0 2 _ h0]; rfl
  · rw [main_local_results_of_some graph 1 2 _ h1]; rfl

/-- C8: the vector `local_results` has the length of the rank's partition (and exists
exactly when the partition does), all its entries are `1.0`, and on four edges and two
members both ranks get `[1.0, 1.0]`. -/
theorem main_local_results_shape {α : Type} [One α] (graph : Graph) (rank size : Nat) :
    ((main_local_results graph rank size : Option (List α)).map List.length =
      (parallel_partition graph rank size).map List.length) ∧
    (∀ local_results : List α, main_local_results graph rank size = some local_results →
      ∀ x, x ∈ local_results → x = 1) ∧
    (∀ e0 e1 e2 e3 : Nat × Nat, ∀ vertices : Nat,
      (main_local_results ⟨[e0, e1, e2, e3], vertices⟩ 0 2 : Option (List α)) = some [1, 1] ∧
      (main_local_results ⟨[e0, e1, e2, e3], vertices⟩ 1 2 : Option (List α)) = some [1, 1]) := by
  refine ⟨main_local_results_length graph rank size, ?_, ?_⟩
  · intro local_results h x hx
    unfold main_local_results at h
    cases hp : parallel_partition graph rank size with
    | none => rw [hp] at h; cases h
    | some p =>
      rw [hp] at h
      simp only [Option.some.injEq] at h
      rw [← h] at hx
      exact List.eq_of_mem_replicate hx
  · intro e0 e1 e2 e3 vertices
    exact four_edges_two_ranks ⟨[e0, e1, e2, e3], vertices⟩ e0 e1 e2 e3 rfl

/-! ## Graph generation -/

theorem generate_fold (rand : Nat → Nat) (V : Nat) (hV : 0 < V) (n : Nat) (g0 : Graph)
    (h0 : ∀ e, e ∈ g0.edges → e.1 < V ∧ e.2 < V) :
    ((List.range n).foldl (generate_step rand V) g0).vertices = g0.vertices ∧
    ((List.range n).foldl (generate_step rand V) g0).edges.length = g0.edges.length + n ∧
    ∀ e, e ∈ ((List.range n).foldl (generate_step rand V) g0).edges → e.1 < V ∧ e.2 < V := by
  induction n with
  | zero => exact ⟨rfl, rfl, h0⟩
  | succ n ih =>
    obtain ⟨i1, i2, i3⟩ := ih
    rw [List.range_succ, List.foldl_append]
    simp only [List.foldl_cons, List.foldl_nil, generate_step, List.length_append,
      List.length_singleton, List.mem_append, List.mem_singleton]
    refine ⟨i1, by omega, ?_⟩
    rintro e (he | rfl)
    · exact i3 e he
    · exact ⟨Nat.mod_lt _ hV, Nat.mod_lt _ hV⟩

/-- C7: for every stream of `rand()` values and every `V > 0`, `generate_graph(E, V)`
returns a graph with `vertices = V`, exactly `E` edges, and both endpoints of every
edge in `[0, V)`. -/
theorem generate_graph_shape (rand : Nat → Nat) (num_edges num_vertices : Nat)
    (hV : 0 < num_vertices) :
    ∃ graph, generate_graph rand num_edges num_vertices = some graph ∧
      graph.vertices = num_vertices ∧
      graph.edges.length = num_edges ∧
      ∀ e, e ∈ graph.edges → e.1 < num_vertices ∧ e.2 < num_vertices := by
  obtain ⟨h1, h2, h3⟩ := generate_fold rand num_vertices hV num_edges
    { edges := [], vertices := num_vertices } (by intro e he; cases he)
  refine ⟨_, ?_, h1, ?_, h3⟩
  · unfold generate_graph
    rw [if_neg (by omega)]
  · rw [h2]
    simp

/-- Witness for C7: three edges on four vertices from the stream `0, 7, 14, …`. -/
theorem generate_graph_shape_witness :
    0 < 4 ∧
    ∃ graph, generate_graph (fun n => 7 * n) 3 4 = some graph ∧
      graph.vertices = 4 ∧
      graph.edges.length = 3 ∧
      ∀ e, e ∈ graph.edges → e.1 < 4 ∧ e.2 < 4 :=
  ⟨by decide, generate_graph_shape (fun n => 7 * n) 3 4 (by decide)⟩

/-! ## Flatten and unflatten -/

theorem interleave_append (a b : List (Nat × Nat)) :
    interleave (a ++ b) = interleave a ++ interleave b := by
  induction a with
  | nil => rfl
  | cons e a ih => simp [interleave, ih]

theorem length_interleave (es : List (Nat × Nat)) : (interleave es).length = 2 * es.length := by
  induction es with
  | nil => rfl
  | cons e es ih => simp only [interleave, List.length_cons, ih]; omega

theorem interleave_getElem? (es : List (Nat × Nat)) (i : Nat) :
    (interleave es)[2 * i]? = es[i]?.map Prod.fst ∧
    (interleave es)[2 * i + 1]? = es[i]?.map Prod.snd := by
  induction es generalizing i with
  | nil => simp [interleave]
  | cons e es ih =>
    cases i with
    | zero => simp [interleave]
    | succ i =>
      have h1 : 2 * (i + 1) = 2 * i + 1 + 1 := by omega
      rw [h1]
      simp only [interleave, List.getElem?_cons_succ]
      exact ih i

theorem set_at_length {α : Type} (A B : List α) (x y : α) :
    (A ++ y :: B).set A.length x = A ++ x :: B := by
  induction A with
  | nil => rfl
  | cons a A ih => simp [ih]

theorem take_succ_of_lt {α : Type} (l : List α) (n : Nat) (e : α) (h : l[n]? = some e) :
    l.take (n + 1) = l.take n ++ [e] := by
  rw [List.take_succ, h]
  rfl

theorem mul_sz_two (i : Nat) (h : 2 * i < SIZE_MOD) : mul_sz 2 i = 2 * i := by
  unfold mul_sz; exact Nat.mod_eq_of_lt h

theorem add_sz_one (i : Nat) (h : i + 1 < SIZE_MOD) : add_sz i 1 = i + 1 := by
  unfold add_sz; exact Nat.mod_eq_of_lt h

theorem flatten_step_spec (es : List (Nat × Nat)) (n : Nat) (hn : n < es.length)
    (hE : 2 * es.length < SIZE_MOD) :
    flatten_step es (interleave (es.take n) ++ List.replicate (2 * (es.length - n)) 0) n
      = some (interleave (es.take (n + 1)) ++ List.replicate (2 * (es.length - (n + 1))) 0) := by
  have he : es[n]? = some es[n] := List.getElem?_eq_getElem hn
  have hrep : List.replicate (2 * (es.length - n)) 0
      = (0 : Nat) :: 0 :: List.replicate (2 * (es.length - (n + 1))) 0 := by
    have : 2 * (es.length - n) = 2 * (es.length - (n + 1)) + 1 + 1 := by omega
    rw [this]; rfl
  have hlen : (interleave (es.take n)).length = 2 * n := by
    rw [length_interleave, List.length_take]; omega
  unfold flatten_step
  rw [he, mul_sz_two n (by omega), add_sz_one (2 * n) (by omega), hrep]
  simp only
  have s1 : vec_set (interleave (es.take n) ++ 0 :: 0 :: List.replicate (2 * (es.length - (n + 1))) 0)
      (2 * n) es[n].1
      = some (interleave (es.take n) ++ es[n].1 :: 0 ::
          List.replicate (2 * (es.length - (n + 1))) 0) := by
    unfold vec_set
    rw [if_pos (by simp only [List.length_append, List.length_cons, hlen]; omega)]
    rw [← hlen, set_at_length]
  rw [s1]
  simp only
  have s2 : vec_set (interleave (es.take n) ++ es[n].1 :: 0 ::
        List.replicate (2 * (es.length - (n + 1))) 0) (2 * n + 1) es[n].2
      = some (interleave (es.take n) ++ es[n].1 :: es[n].2 ::
          List.replicate (2 * (es.length - (n + 1))) 0) := by
    unfold vec_set
    rw [if_pos (by simp only [List.length_append, List.length_cons, hlen]; omega)]
    have h3 : interleave (es.take n) ++ es[n].1 :: 0 ::
        List.replicate (2 * (es.length - (n + 1))) 0
        = (interleave (es.take n) ++ [es[n].1]) ++ 0 ::
          List.replicate (2 * (es.length - (n + 1))) 0 := by simp
    have h4 : 2 * n + 1 = (interleave (es.take n) ++ [es[n].1]).length := by
      simp [hlen]
    rw [h3, h4, set_at_length]
    simp
  rw [s2, take_succ_of_lt es n es[n] he, interleave_append]
  simp [interleave]

theorem flatten_upto (es : List (Nat × Nat)) (hE : 2 * es.length < SIZE_MOD) (n : Nat)
    (hn : n ≤ es.length) :
    (List.range n).foldlM (flatten_step es) (List.replicate (2 * es.length) 0)
      = some (interleave (es.take n) ++ List.replicate (2 * (es.length - n)) 0) := by
  induction n with
  | zero => simp [interleave]
  | succ n ih =>
    rw [List.range_succ, List.foldlM_append, ih (by omega)]
    have hs := flatten_step_spec es n (by omega) hE
    simp [hs]

theorem flatten_edges_eq (es : List (Nat × Nat)) (hE : 2 * es.length < SIZE_MOD) :
    flatten_edges es es.length = some (interleave es) := by
  unfold flatten_edges
  have h : mul_sz es.length 2 = 2 * es.length := by
    unfold mul_sz; rw [Nat.mul_comm]; exact Nat.mod_eq_of_lt hE
  rw [h, flatten_upto es hE es.length (Nat.le_refl _)]
  simp

theorem unflatten_step_spec (es : List (Nat × Nat)) (n : Nat) (hn : n < es.length)
    (hE : 2 * es.length < SIZE_MOD) :
    unflatten_step (interleave es) (es.take n) n = some (es.take (n + 1)) := by
  have he : es[n]? = some es[n] := List.getElem?_eq_getElem hn
  obtain ⟨g1, g2⟩ := interleave_getElem? es n
  unfold unflatten_step
  rw [mul_sz_two n (by omega), add_sz_one (2 * n) (by omega), g1, g2, he]
  simp only [Option.map_some']
  rw [take_succ_of_lt es n es[n] he]

theorem unflatten_upto (es : List (Nat × Nat)) (hE : 2 * es.length < SIZE_MOD) (n : Nat)
    (hn : n ≤ es.length) :
    (List.range n).foldlM (unflatten_step (interleave es)) [] = some (es.take n) := by
  induction n with
  | zero => simp
  | succ n ih =>
    rw [List.range_succ, List.foldlM_append, ih (by omega)]
    have hs := unflatten_step_spec es n (by omega) hE
    simp [hs]

theorem unflatten_edges_eq (es : List (Nat × Nat)) (hE : 2 * es.length < SIZE_MOD) :
    unflatten_edges (interleave es) es.length = some es := by
  unfold unflatten_edges
  rw [unflatten_upto es hE es.length (Nat.le_refl _), List.take_length]
theorem two_mul_lt_of_le_max_size (n : Nat) (h : n ≤ max_size) : 2 * n < SIZE_MOD := by
  simp only [max_size] at h
  unfold SIZE_MOD
  omega

theorem MPI_Bcast_full {α : Type} (sent buffer : List α) (count : Nat)
    (h1 : sent.length = count) (h2 : buffer.length = count) :
    MPI_Bcast sent buffer count = some sent := by
  unfold MPI_Bcast
  rw [if_pos ⟨h1, by omega⟩, List.drop_of_length_le (by omega), List.append_nil]

theorem main_replicate_eq (generated : Graph) (rank garbage : Nat)
    (hE : generated.edges.length ≤ max_size) :
    main_replicate generated rank garbage = some generated := by
  have hE2 := two_mul_lt_of_le_max_size _ hE
  have hm : mul_sz generated.edges.length 2 = 2 * generated.edges.length := by
    unfold mul_sz; rw [Nat.mul_comm]; exact Nat.mod_eq_of_lt hE2
  have hf := flatten_edges_eq generated.edges hE2
  have hu := unflatten_edges_eq generated.edges hE2
  have hb1 : ∀ w : Nat, MPI_Bcast [generated.vertices] [w] 1 = some [generated.vertices] :=
    fun w => MPI_Bcast_full _ _ 1 rfl rfl
  have hb2 : ∀ w : Nat, MPI_Bcast [generated.edges.length] [w] 1
      = some [generated.edges.length] :=
    fun w => MPI_Bcast_full _ _ 1 rfl rfl
  have hb3 : ∀ buffer : List Nat, buffer.length = 2 * generated.edges.length →
      MPI_Bcast (interleave generated.edges) buffer (2 * generated.edges.length)
        = some (interleave generated.edges) :=
    fun buffer hb => MPI_Bcast_full _ _ _ (length_interleave _) hb
  unfold main_replicate
  by_cases hr : rank = 0
  · simp [hr, hf, hb1, hb2, hm, hb3 _ (length_interleave _)]
  · simp [hr, hf, hb1, hb2, hm, hb3 _ (List.length_replicate _ _), hu]

/-- C9: on the coordinator the flatten loop runs to completion with every index in
bounds, and the buffer it leaves has length `2 * E` with `flat[2 i] = u_i` and
`flat[2 i + 1] = v_i` for every `i < E`. -/
theorem flatten_layout (edges : List (Nat × Nat)) (hE : edges.length ≤ max_size) :
    ∃ flat_edges, flatten_edges edges edges.length = some flat_edges ∧
      flat_edges.length = 2 * edges.length ∧
      ∀ i (h : i < edges.length),
        flat_edges[2 * i]? = some edges[i].1 ∧ flat_edges[2 * i + 1]? = some edges[i].2 := by
  refine ⟨interleave edges, flatten_edges_eq edges (two_mul_lt_of_le_max_size _ hE),
    length_interleave edges, ?_⟩
  intro i h
  obtain ⟨g1, g2⟩ := interleave_getElem? edges i
  rw [g1, g2, List.getElem?_eq_getElem h]
  exact ⟨rfl, rfl⟩

/-- Witness for C9: three edges. -/
theorem flatten_layout_witness :
    [(0, 1), (1, 2), (2, 0)].length ≤ max_size ∧
    ∃ flat_edges, flatten_edges [(0, 1), (1, 2), (2, 0)] [(0, 1), (1, 2), (2, 0)].length
        = some flat_edges ∧
      flat_edges.length = 2 * [(0, 1), (1, 2), (2, 0)].length ∧
      ∀ i (h : i < [(0, 1), (1, 2), (2, 0)].length),
        flat_edges[2 * i]? = some ([(0, 1), (1, 2), (2, 0)].get ⟨i, h⟩).1 ∧
        flat_edges[2 * i + 1]? = some ([(0, 1), (1, 2), (2, 0)].get ⟨i, h⟩).2 :=
  ⟨by decide, flatten_layout [(0, 1), (1, 2), (2, 0)] (by decide)⟩

/-- C3: for every edge list held by rank 0, unflattening the buffer that the flatten
loop produced gives back the edge list, element for element and in order; and every
member, coordinator or not, ends the replication with the coordinator's graph. -/
theorem replication_round_trip (generated : Graph) (hE : generated.edges.length ≤ max_size) :
    (∃ flat_edges, flatten_edges generated.edges generated.edges.length = some flat_edges ∧
      MPI_Bcast flat_edges (List.replicate (mul_sz generated.edges.length 2) 0)
        (mul_sz generated.edges.length 2) = some flat_edges ∧
      unflatten_edges flat_edges generated.edges.length = some generated.edges) ∧
    ∀ rank garbage, main_replicate generated rank garbage = some generated := by
  have hE2 := two_mul_lt_of_le_max_size _ hE
  have hm : mul_sz generated.edges.length 2 = 2 * generated.edges.length := by
    unfold mul_sz; rw [Nat.mul_comm]; exact Nat.mod_eq_of_lt hE2
  refine ⟨⟨interleave generated.edges, flatten_edges_eq _ hE2, ?_, unflatten_edges_eq _ hE2⟩,
    fun rank garbage => main_replicate_eq generated rank garbage hE⟩
  rw [hm]
  exact MPI_Bcast_full _ _ _ (length_interleave _) (List.length_replicate _ _)

/-- Witness for C3: three edges on three vertices. -/
theorem replication_round_trip_witness :
    (⟨[(0, 1), (1, 2), (2, 0)], 3⟩ : Graph).edges.length ≤ max_size ∧
    ∀ rank garbage, main_replicate ⟨[(0, 1), (1, 2), (2, 0)], 3⟩ rank garbage
      = some ⟨[(0, 1), (1, 2), (2, 0)], 3⟩ :=
  ⟨by decide, (replication_round_trip ⟨[(0, 1), (1, 2), (2, 0)], 3⟩ (by decide)).2⟩

/-! ## All-gather -/

theorem recv_into_ok {α : Type} (recvbuf : List α) (offset count : Nat) (msg : List α)
    (h1 : msg.length = count) (h2 : offset + count ≤ recvbuf.length) :
    recv_into recvbuf offset count msg
      = .ok (recvbuf.take offset ++ msg ++ recvbuf.drop (offset + count)) := by
  unfold recv_into
  rw [if_neg (by omega), if_neg (by omega)]

/-- Contributions of exactly `k` elements fill the blocks they are received into. -/
theorem gather_blocks_full {α : Type} (k : Nat) (msgs : List (List α)) :
    ∀ (j : Nat) (pre rest : List α), (∀ m, m ∈ msgs → m.length = k) →
      pre.length = j * k → rest.length = msgs.length * k →
      gather_blocks k j msgs (pre ++ rest) = .ok (pre ++ msgs.flatten) := by
  induction msgs with
  | nil =>
    intro j pre rest _ _ hrest
    have : rest = [] := List.eq_nil_of_length_eq_zero (by simpa using hrest)
    simp [gather_blocks, this]
  | cons msg msgs ih =>
    intro j pre rest hall hpre hrest
    have hm : msg.length = k := hall msg (List.mem_cons_self _ _)
    have hrest' : rest.length = msgs.length * k + k := by
      rw [hrest, List.length_cons, Nat.succ_mul]
    unfold gather_blocks
    rw [recv_into_ok _ _ _ _ hm (by rw [List.length_append]; omega)]
    simp only
    have e1 : (pre ++ rest).take (j * k) = pre := by
      rw [← hpre, List.take_left]
    have e2 : (pre ++ rest).drop (j * k + k) = rest.drop k := by
      rw [← hpre, List.drop_append]
    rw [e1, e2]
    have := ih (j + 1) (pre ++ msg) (rest.drop k)
      (fun m hmem => hall m (List.mem_cons_of_mem _ hmem))
      (by rw [List.length_append, hpre, hm, Nat.succ_mul])
      (by rw [List.length_drop, hrest']; omega)
    rw [this]
    simp

theorem length_resize {α : Type} (v : List α) (n : Nat) (fill : α) :
    (resize v n fill).length = n := by
  unfold resize
  simp only [List.length_append, List.length_take, List.length_replicate]
  omega

theorem set_own_slot {α : Type} (Ls : List (List α)) (rank : Nat) (L : List α)
    (h : Ls[rank]? = some L) : Ls.set rank (L.take L.length) = Ls := by
  rw [List.take_length]
  apply List.ext_getElem?
  intro i
  by_cases hi : rank = i
  · subst hi
    rw [List.getElem?_set_self, h]
    have := (List.getElem?_eq_some.mp h).1
    simp [this]
  · rw [List.getElem?_set_ne hi]

theorem length_flatten_const {α : Type} (Ls : List (List α)) (k : Nat)
    (h : ∀ L, L ∈ Ls → L.length = k) : Ls.flatten.length = k * Ls.length := by
  induction Ls with
  | nil => simp
  | cons L Ls ih =>
    have h1 := h L (List.mem_cons_self _ _)
    have h2 := ih (fun M hM => h M (List.mem_cons_of_mem _ hM))
    simp only [List.flatten_cons, List.length_append, List.length_cons, h1, h2]
    ring

/-- C6: when the `S > 0` members hold vectors of one common length `k` (the buffer size
`k * S` being representable), `gather_results` completes on every member and leaves in
`global_results` the rank-ordered concatenation of the vectors, of length exactly `k * S`,
whatever `global_results` held before. -/
theorem gather_results_concat {α : Type} [Zero α] (Ls : List (List α)) (k rank : Nat)
    (local_results global_results : List α)
    (hk : ∀ L, L ∈ Ls → L.length = k) (hr : Ls[rank]? = some local_results)
    (hsz : k * Ls.length < SIZE_MOD) :
    gather_results ⟨rank, Ls⟩ local_results global_results = .ok Ls.flatten ∧
    Ls.flatten.length = k * Ls.length := by
  have hmem : local_results ∈ Ls := by
    obtain ⟨h, heq⟩ := List.getElem?_eq_some.mp hr
    rw [← heq]
    exact List.getElem_mem h
  have hl : local_results.length = k := hk _ hmem
  refine ⟨?_, length_flatten_const Ls k hk⟩
  unfold gather_results MPI_Allgather MPI_Comm_size
  simp only
  rw [if_neg (by omega), set_own_slot Ls rank local_results hr]
  have hm : mul_sz local_results.length Ls.length = Ls.length * k := by
    unfold mul_sz; rw [hl, Nat.mod_eq_of_lt hsz, Nat.mul_comm]
  rw [hm, hl]
  have := gather_blocks_full k Ls 0 [] (resize global_results (Ls.length * k) 0) hk
    (by simp) (length_resize _ _ _)
  simpa using this

/-- Witness for C6: two members holding `[1, 1]` each. -/
theorem gather_results_concat_witness :
    gather_results ⟨0, [[1, 1], [1, 1]]⟩ [1, 1] ([] : List ℚ)
      = .ok ([[1, 1], [1, 1]] : List (List ℚ)).flatten ∧
    ([[1, 1], [1, 1]] : List (List ℚ)).flatten.length = 2 * [[(1 : ℚ), 1], [1, 1]].length :=
  gather_results_concat [[1, 1], [1, 1]] 2 0 [1, 1] [] (by decide) (by decide) (by decide)

/-! ## All-reduce -/

theorem length_sum_into {α : Type} [Add α] (a m : List α) :
    (sum_into a m).length = min a.length m.length := by
  unfold sum_into
  exact List.length_zipWith _ _ _

theorem sum_into_getD {α : Type} [Zero α] [Add α] (a m : List α) (i : Nat)
    (h1 : i < a.length) (h2 : i < m.length) :
    (sum_into a m).getD i 0 = a.getD i 0 + m.getD i 0 := by
  induction a generalizing m i with
  | nil => cases h1
  | cons x a ih =>
    cases m with
    | nil => cases h2
    | cons y m =>
      cases i with
      | zero => simp [sum_into]
      | succ i =>
        have := ih m i (Nat.lt_of_succ_lt_succ h1) (Nat.lt_of_succ_lt_succ h2)
        simpa [sum_into] using this

theorem range_map_getD {α : Type} [Zero α] (l : List α) (k : Nat) (h : l.length = k) :
    (List.range k).map (fun i => l.getD i 0) = l := by
  apply List.ext_getElem
  · simp [h]
  · intro i h1 h2
    simp [List.getD_eq_getElem?_getD, List.getElem?_eq_getElem h2]

/-- Accumulating contributions of one common length `k` sums them index by index, in
the order of the contributions. -/
theorem foldl_sum_into_eq {α : Type} [Zero α] [Add α] (k : Nat) (msgs : List (List α)) :
    ∀ acc : List α, acc.length = k → (∀ m, m ∈ msgs → m.length = k) →
      msgs.foldl sum_into acc = (List.range k).map (fun i =>
        (msgs.map (fun L => L.getD i 0)).foldl (fun a b => a + b) (acc.getD i 0)) := by
  induction msgs with
  | nil =>
    intro acc hacc _
    simp only [List.foldl_nil, List.map_nil]
    exact (range_map_getD acc k hacc).symm
  | cons m msgs ih =>
    intro acc hacc hall
    have hm : m.length = k := hall m (List.mem_cons_self _ _)
    have hlen : (sum_into acc m).length = k := by rw [length_sum_into, hacc, hm, Nat.min_self]
    rw [List.foldl_cons, ih (sum_into acc m) hlen
      (fun x hx => hall x (List.mem_cons_of_mem _ hx))]
    apply List.map_congr_left
    intro i hi
    have hik : i < k := List.mem_range.mp hi
    rw [sum_into_getD acc m i (by omega) (by omega)]
    rfl

theorem sum_all_elementwise {α : Type} [Zero α] [Add α] (k : Nat) (Ls : List (List α))
    (hne : Ls ≠ []) (hall : ∀ L, L ∈ Ls → L.length = k) :
    sum_all Ls = elementwise_sum Ls k := by
  cases Ls with
  | nil => exact absurd rfl hne
  | cons m ms =>
    show ms.foldl sum_into m = _
    rw [foldl_sum_into_eq k ms m (hall m (List.mem_cons_self _ _))
        (fun x hx => hall x (List.mem_cons_of_mem _ hx))]
    rfl

theorem length_elementwise_sum {α : Type} [Zero α] [Add α] (Ls : List (List α)) (k : Nat) :
    (elementwise_sum Ls k).length = k := by
  simp [elementwise_sum]

theorem rank_lt_of_getElem? {α : Type} (Ls : List α) (rank : Nat) (L : α)
    (h : Ls[rank]? = some L) : rank < Ls.length ∧ L ∈ Ls := by
  obtain ⟨h1, heq⟩ := List.getElem?_eq_some.mp h
  exact ⟨h1, by rw [← heq]; exact List.getElem_mem h1⟩

theorem le_mul_of_rank_lt (k S rank : Nat) (h : rank < S) : k ≤ k * S :=
  Nat.le_mul_of_pos_right k (by omega)

/-- The reduce step of `main` when all members hold vectors of one length: the call
completes, and the buffer is the accumulated sum followed by what is left of the
zeros it was allocated with. -/
theorem main_allreduce_ok {α : Type} [Zero α] [Add α] (Ls : List (List α)) (rank : Nat)
    (local_results : List α) (hr : Ls[rank]? = some local_results)
    (heq : ∀ L, L ∈ Ls → L.length = local_results.length)
    (hsz : local_results.length * Ls.length < SIZE_MOD) :
    main_allreduce ⟨rank, Ls⟩ local_results
      = .ok (sum_all Ls ++
          List.replicate (local_results.length * Ls.length - (sum_all Ls).length) 0) := by
  obtain ⟨hrank, _⟩ := rank_lt_of_getElem? Ls rank local_results hr
  have hkS := le_mul_of_rank_lt local_results.length Ls.length rank hrank
  have hm : mul_sz local_results.length Ls.length = local_results.length * Ls.length := by
    unfold mul_sz; exact Nat.mod_eq_of_lt hsz
  unfold main_allreduce MPI_Allreduce MPI_Comm_size
  simp only
  rw [hm, if_neg (by rw [List.length_replicate]; omega),
    set_own_slot Ls rank local_results hr, if_neg, List.drop_replicate]
  intro hany
  obtain ⟨L, hL, hne⟩ := List.any_eq_true.mp hany
  simp only [decide_eq_true_eq] at hne
  exact hne (heq L hL)

/-- C5: when the `S > 0` members hold vectors of one common length `k` (the buffer size
`k * S` being representable), the buffer `global_results_benchmark` that `main` holds
after `MPI_Allreduce` is, on every member, the elementwise sum of the vectors followed by
`k * S - k` untouched zeros: its length is `k * S`, not `k`. -/
theorem main_allreduce_sum {α : Type} [Zero α] [Add α] (Ls : List (List α)) (k rank : Nat)
    (local_results : List α)
    (hk : ∀ L, L ∈ Ls → L.length = k) (hr : Ls[rank]? = some local_results)
    (hsz : k * Ls.length < SIZE_MOD) :
    main_allreduce ⟨rank, Ls⟩ local_results
      = .ok (elementwise_sum Ls k ++ List.replicate (k * Ls.length - k) 0) ∧
    (elementwise_sum Ls k ++ List.replicate (k * Ls.length - k) (0 : α)).length
      = k * Ls.length := by
  obtain ⟨hrank, hmem⟩ := rank_lt_of_getElem? Ls rank local_results hr
  have hl : local_results.length = k := hk _ hmem
  have hkS := le_mul_of_rank_lt k Ls.length rank hrank
  have hne : Ls ≠ [] := by
    intro h; rw [h] at hrank; cases hrank
  constructor
  · rw [main_allreduce_ok Ls rank local_results hr
        (fun L hL => by rw [hl, hk L hL]) (by rw [hl]; exact hsz),
      sum_all_elementwise k Ls hne hk, length_elementwise_sum, hl]
  · rw [List.length_append, length_elementwise_sum, List.length_replicate]
    omega

/-- Witness for C5: two members holding `[1, 1]` each. -/
theorem main_allreduce_sum_witness :
    main_allreduce ⟨0, [[1, 1], [1, 1]]⟩ ([1, 1] : List ℚ)
      = .ok (elementwise_sum [[1, 1], [1, 1]] 2 ++
          List.replicate (2 * [[(1 : ℚ), 1], [1, 1]].length - 2) 0) ∧
    (elementwise_sum [[1, 1], [1, 1]] 2 ++
        List.replicate (2 * [[(1 : ℚ), 1], [1, 1]].length - 2) (0 : ℚ)).length
      = 2 * [[(1 : ℚ), 1], [1, 1]].length :=
  main_allreduce_sum [[1, 1], [1, 1]] 2 0 [1, 1] (by decide) (by decide) (by decide)

/-- C5, counterexample: with two members holding `[1.0, 1.0]` each the reduce buffer of
`main` is `[2, 2, 0, 0]`: it has four elements, not two, and it is not `[2, 2]`. -/
theorem main_allreduce_buffer_too_long :
    main_allreduce ⟨0, [[1, 1], [1, 1]]⟩ ([1, 1] : List ℚ) = .ok [2, 2, 0, 0] ∧
    ([2, 2, 0, 0] : List ℚ).length ≠ 2 ∧
    main_allreduce ⟨0, [[1, 1], [1, 1]]⟩ ([1, 1] : List ℚ) ≠ .ok [2, 2] := by
  have h : main_allreduce ⟨0, [[1, 1], [1, 1]]⟩ ([1, 1] : List ℚ) = .ok [2, 2, 0, 0] := by
    norm_num [main_allreduce, MPI_Allreduce, MPI_Comm_size, mul_sz, SIZE_MOD, sum_all,
      sum_into, List.replicate]
  refine ⟨h, by decide, ?_⟩
  rw [h]
  intro hc
  injection hc with hc
  have := congrArg List.length hc
  simp at this

end GrafoMPI
